import Mathlib

/-!
Shallow embedding of the RAG prototype's core (segmentation, hybrid
retrieval fusion, context assembly) from `src/main.py`,
`src/utils/retriever.py`, `src/utils/extractors.py`, `src/utils/loader.py`.
Strings are modelled as `List Char`; Python exceptions as `Except Unit`;
Python sets of seen keys as lists with membership.
-/

namespace RagSpec

/-- Python whitespace class (`str.strip()` / regex `\s`), restricted to the
ASCII whitespace characters; this is the character set the source's inputs
exercise. -/
def isWS (c : Char) : Bool :=
  c = ' ' || c = '\t' || c = '\n' || c = '\r' || c.val = 11 || c.val = 12

/-- Python `str.strip()` on a character list: drop leading and trailing
whitespace. -/
def stripL (s : List Char) : List Char :=
  ((s.dropWhile isWS).reverse.dropWhile isWS).reverse

/-- A langchain `Document` as the source builds it: page content plus the
metadata fields the source reads (`source`, `page_number`, `paragraph`). -/
structure Doc where
  content : List Char
  source : String
  page_number : Option Nat
  paragraph : Option (List Char)
deriving DecidableEq

/-- The merge key of `hybrid_get_relevant_documents` in
`src/utils/retriever.py`:
`(doc.metadata.get("source"), doc.metadata.get("page_number"), doc.page_content[:50])`. -/
def key3 (d : Doc) : String × Option Nat × List Char :=
  (d.source, d.page_number, d.content.take 50)

/-- The dedup key of the context walk in `src/main.py` (`ask`):
`(doc.metadata.get("source"), doc.metadata.get("page_number"))`. -/
def key2 (d : Doc) : String × Option Nat :=
  (d.source, d.page_number)

/-- The seen-set filtered merge loop of `hybrid_get_relevant_documents`:
append each document whose `key3` has not been seen, remembering its key.
The source runs this loop over the sparse list and then continues it over
the dense list with the same state, which equals one pass over the
concatenation. -/
def dedupMerge (seen : List (String × Option Nat × List Char)) :
    List Doc → List Doc
  | [] => []
  | d :: rest =>
    if key3 d ∈ seen then dedupMerge seen rest
    else d :: dedupMerge (key3 d :: seen) rest

/-- `hybrid_get_relevant_documents` from `src/utils/retriever.py`, as a
function of the two retrievers' result lists: sparse results first, then
dense, key3-deduplicated, truncated to `k`. -/
def hybrid_get_relevant_documents (k : Nat) (sparse_docs dense_docs : List Doc) :
    List Doc :=
  (dedupMerge [] (sparse_docs ++ dense_docs)).take k

/-- Comparison used by `sorted(docs, key=lambda d: len(d.page_content))`. -/
def lenLe (a b : Doc) : Prop := a.content.length ≤ b.content.length

/-- One insertion step of a stable ascending insertion sort on raw content
length; `d` is placed before the first element whose length is not smaller,
so that elements originally later than `d` never overtake it on ties. -/
def insLe (d : Doc) : List Doc → List Doc
  | [] => [d]
  | e :: r =>
    if e.content.length < d.content.length then e :: insLe d r
    else d :: e :: r

/-- `sorted(docs, key=lambda d: len(d.page_content))` from `ask` in
`src/main.py`: Python's `sorted` is the unique stable ascending sort, which
this insertion sort implements. -/
def sortByLen (l : List Doc) : List Doc := l.foldr insLe []

/-- The context-building walk of `ask` in `src/main.py`: skip documents
whose `(source, page_number)` was already seen; if the stripped content
still fits the budget, include it and extend the running total; otherwise
`break` (stop the walk entirely). Returns the `included_docs` list. -/
def walkGo (budget : Nat) : List Doc → List (String × Option Nat) → Nat → List Doc
  | [], _, _ => []
  | d :: rest, seen, total =>
    if key2 d ∈ seen then walkGo budget rest seen total
    else
      if total + (stripL d.content).length ≤ budget then
        d :: walkGo budget rest (key2 d :: seen) (total + (stripL d.content).length)
      else []

/-- `included_docs` as computed by `ask`: sort ascending by raw content
length, then walk with empty seen set and zero running total. The source
hard-codes `budget = 4000`; the budget is kept as a parameter and
instantiated at 4000 where the source's constant matters. -/
def assembleIncluded (budget : Nat) (docs : List Doc) : List Doc :=
  walkGo budget (sortByLen docs) [] 0

/-- Budget-free variant of the walk: include every key2-new document.  Used
only to state what the walk did before it stopped. -/
def dedupAll (seen : List (String × Option Nat)) : List Doc → List Doc
  | [] => []
  | d :: rest =>
    if key2 d ∈ seen then dedupAll seen rest
    else d :: dedupAll (key2 d :: seen) rest

/-- Total stripped content length of a document list (the walk's running
character count over its included documents). -/
def sumLens : List Doc → Nat
  | [] => 0
  | d :: rest => (stripL d.content).length + sumLens rest

/-- The JSON body `ask` returns on its early-exit paths. -/
structure AskResponse where
  antwort : String
  quellen : List String
deriving DecidableEq

/-- The fallback body returned both when retrieval is empty and when the
assembled context is empty in `src/main.py`. -/
def fallbackResponse : AskResponse :=
  ⟨"Dazu liegt mir keine verlässliche Information vor.", []⟩

/-- The early-exit structure of `ask`: empty retrieval returns the
fallback; otherwise, an empty `included_docs` returns the fallback; only
otherwise does control reach the external LLM call (modelled as `none`). -/
def askEarly (docs : List Doc) : Option AskResponse :=
  if docs = [] then some fallbackResponse
  else if assembleIncluded 4000 docs = [] then some fallbackResponse
  else none

/-- ASCII letter, the class `[a-zA-Z]` of the source's regexes. -/
def isAsciiLetter (c : Char) : Bool :=
  ('a' ≤ c && c ≤ 'z') || ('A' ≤ c && c ≤ 'Z')

/-- Python `\w` word character for the inputs in scope: ASCII letters and
digits, underscore, and the German letters appearing in the source's
character classes.  `§` and all whitespace are non-word characters, which
is what the `\b` reasoning below needs. -/
def isWordChar (c : Char) : Bool :=
  isAsciiLetter c || c.isDigit || c = '_' ||
  c = 'ä' || c = 'ö' || c = 'ü' || c = 'ß' || c = 'Ä' || c = 'Ö' || c = 'Ü' || c = 'ẞ'

/-- The class `[a-zäöüß]` under `re.IGNORECASE` (the line-merge test in
`extract_text_from_pdf`): because of the flag it also matches the upper
case letters. -/
def isContLetter (c : Char) : Bool :=
  ('a' ≤ c && c ≤ 'z') || ('A' ≤ c && c ≤ 'Z') ||
  c = 'ä' || c = 'ö' || c = 'ü' || c = 'ß' || c = 'Ä' || c = 'Ö' || c = 'Ü' || c = 'ẞ'

/-- `re.match(r"^[a-zäöüß]", clean, re.IGNORECASE)` as a test on the first
character. -/
def startsContLetter (s : List Char) : Bool :=
  match s with
  | c :: _ => isContLetter c
  | [] => false

/-- Python `str.splitlines()` restricted to `\n` line terminators (the
terminator the embedded inputs use): no trailing empty line for a final
newline, `""` gives `[]`. -/
def splitlinesGo (cur : List Char) : List Char → List (List Char)
  | [] => if cur = [] then [] else [cur.reverse]
  | c :: rest =>
    if c = '\n' then cur.reverse :: splitlinesGo [] rest
    else splitlinesGo (c :: cur) rest

def splitlines (s : List Char) : List (List Char) := splitlinesGo [] s

/-- `sep.join(pieces)`. -/
def joinSep (sep : List Char) : List (List Char) → List Char
  | [] => []
  | [x] => x
  | x :: y :: rest => x ++ sep ++ joinSep sep (y :: rest)

/-- The line-merge loop of `extract_text_from_pdf` (buffer/merged_lines):
empty lines are dropped; a line whose first character matches
`[a-zäöüß]` with `re.IGNORECASE` is appended to a non-empty buffer with a
single space; otherwise the buffer is flushed (stripped) and restarted.
The source computes this list and then does not use it. -/
def mergeGo (buffer : List Char) : List (List Char) → List (List Char)
  | [] => if buffer = [] then [] else [stripL buffer]
  | line :: rest =>
    let clean := stripL line
    if clean = [] then mergeGo buffer rest
    else if startsContLetter clean && !buffer.isEmpty then
      mergeGo (buffer ++ ' ' :: clean) rest
    else if buffer.isEmpty then mergeGo clean rest
    else stripL buffer :: mergeGo clean rest

def mergeLines (lines : List (List Char)) : List (List Char) := mergeGo [] lines

/-- `page_text = "\n".join(line.strip() for line in lines if line.strip())`
from `extract_text_from_pdf`: the string that actually gets chunked is the
join of the stripped non-empty original lines, not of `merged_lines`. -/
def pageText (raw : List Char) : List Char :=
  joinSep ['\n']
    ((splitlines raw).filterMap (fun l =>
      if stripL l = [] then none else some (stripL l)))

/-- `\b` after a word character: the next character is absent or non-word. -/
def boundaryB (s : List Char) : Bool :=
  match s with
  | [] => true
  | c :: _ => !(isWordChar c)

/-- `\d+\b` with backtracking: some non-empty digit prefix followed by a
word boundary. -/
def digits2 : List Char → Bool
  | [] => false
  | c :: rest => c.isDigit && (boundaryB rest || digits2 rest)

/-- The optional sub-clause group `\s*Abs\.\s*\d+` followed by `\b`: skip
whitespace, read the literal `Abs.`, skip whitespace, then a digit run with
a boundary. -/
def absPart (s : List Char) : Bool :=
  match s.dropWhile isWS with
  | a :: b :: c :: d :: u =>
    (a = 'A' && b = 'b' && c = 's' && d = '.') && digits2 (u.dropWhile isWS)
  | _ => false

/-- After `\d+`: the optional `[a-zA-Z]`, the optional `Abs.` group, and
the closing `\b`, with all backtracking branches. -/
def tailPart (s : List Char) : Bool :=
  (match s with
   | c :: rest => isAsciiLetter c && (absPart rest || boundaryB rest)
   | [] => false)
  || absPart s || boundaryB s

/-- State after at least one digit of `\d+` has been consumed: either stop
the digit run here, or consume another digit. -/
def digitsLoop : List Char → Bool
  | [] => tailPart []
  | c :: rest => tailPart (c :: rest) || (c.isDigit && digitsLoop rest)

/-- `\d+[a-zA-Z]?(\s*Abs\.\s*\d+)?\b` from the start. -/
def digitsStart : List Char → Bool
  | [] => false
  | c :: rest => c.isDigit && digitsLoop rest

/-- After the `§`: `\s?` then the digit part.  A present whitespace must be
consumed (the no-consume branch would put `\d+` on whitespace and fail), so
the optional is deterministic. -/
def afterSectB : List Char → Bool
  | [] => false
  | c :: rest => if isWS c then digitsStart rest else digitsStart (c :: rest)

/-- The zero-width lookahead
`(?=\n?\s*§\s?\d+[a-zA-Z]?(?:\s*Abs\.\s*\d+)?\b)` of
`extract_text_from_pdf` as a match test at the start of a suffix.
`\n?\s*` matches exactly the all-whitespace prefixes, so a match consumes
the maximal whitespace run and must then see `§`. -/
def matchLA (s : List Char) : Bool :=
  match s.dropWhile isWS with
  | c :: rest => c = '§' && afterSectB rest
  | [] => false

/-- Longest prefix of `s` none of whose positions starts a lookahead match,
together with the rest (which, if non-empty, starts a match). -/
def breakAtMatch : List Char → List Char × List Char
  | [] => ([], [])
  | c :: rest =>
    if matchLA (c :: rest) then ([], c :: rest)
    else
      let p := breakAtMatch rest
      (c :: p.1, p.2)

/-- The splitter of `re.split` with a zero-width pattern: every position
where the lookahead matches closes the current piece and starts a new one
(Python ≥3.7 splits on every empty match, yielding a leading empty piece
when position 0 matches). -/
def splitGo (acc : List Char) : List Char → List (List Char)
  | [] => [acc.reverse]
  | c :: rest =>
    if matchLA (c :: rest) then acc.reverse :: splitGo [c] rest
    else splitGo (c :: acc) rest

/-- `re.split(r"(?=...)", page_text)`. -/
def resplit (s : List Char) : List (List Char) := splitGo [] s

/-- The per-piece normalisation of `extract_text_from_pdf`: a stripped
piece that does not start with `§` is re-prefixed with `"§ "`. -/
def emitChunk (x : List Char) : List Char :=
  if x.head? = some '§' then x else '§' :: ' ' :: x

/-- The full chunking of one page string: split at lookahead matches, strip
each piece, drop empty pieces, re-prefix pieces not starting with `§`. -/
def chunkify (s : List Char) : List (List Char) :=
  (((resplit s).map stripL).filter (fun x => x ≠ [])).map emitChunk

/-- The group `(\d+[a-zA-Z]?)` captured by
`re.search(r"§\s?(\d+[a-zA-Z]?)", ...)`: maximal digit run plus an optional
following ASCII letter. -/
def grabParaNum (s : List Char) : List Char :=
  let ds := s.takeWhile (fun c => c.isDigit)
  match s.dropWhile (fun c => c.isDigit) with
  | c :: _ => if isAsciiLetter c then ds ++ [c] else ds
  | [] => ds

/-- Try `§\s?(\d+[a-zA-Z]?)` at the start of a suffix. -/
def paraAt : List Char → Option (List Char)
  | '§' :: rest =>
    let rest' := match rest with
      | c :: r => if isWS c then r else c :: r
      | [] => ([] : List Char)
    match rest' with
    | c :: _ => if c.isDigit then some (grabParaNum rest') else none
    | [] => none
  | _ => none

/-- `re.search`: leftmost position where `paraAt` succeeds. -/
def paraSearch : List Char → Option (List Char)
  | [] => none
  | c :: rest =>
    match paraAt (c :: rest) with
    | some g => some g
    | none => paraSearch rest

/-- All documents emitted for one PDF page: chunk the page string and
attach the file name, the 1-based page number, and the searched paragraph
label. -/
def pdfPageDocs (source : String) (pageIdx : Nat) (raw : List Char) : List Doc :=
  (chunkify (pageText raw)).map fun c =>
    ⟨c, source, some (pageIdx + 1), paraSearch c⟩

/-- `for page_num, page in enumerate(reader.pages)` with running 0-based
index `i`. -/
def extractPdfFrom (source : String) (i : Nat) : List (List Char) → List Doc
  | [] => []
  | raw :: rest => pdfPageDocs source i raw ++ extractPdfFrom source (i + 1) rest

/-- `extract_text_from_pdf`: the whole body is wrapped in `try/except`;
a failure is caught, logged, and yields `[]`. The input carries either the
per-page raw texts or the failure. -/
def extract_text_from_pdf (source : String)
    (input : Except Unit (List (List Char))) : List Doc :=
  match input with
  | .error _ => []
  | .ok pages => extractPdfFrom source 0 pages

/-- `"\n".join(para.text for para in doc.paragraphs if para.text.strip())`. -/
def docxFullText (paras : List (List Char)) : List Char :=
  joinSep ['\n'] (paras.filter (fun p => stripL p ≠ []))

/-- `extract_text_from_docx`: on success always exactly one document whose
content is the stripped joined text; on failure `[]` (caught and logged). -/
def extract_text_from_docx (source : String)
    (input : Except Unit (List (List Char))) : List Doc :=
  match input with
  | .error _ => []
  | .ok paras => [⟨stripL (docxFullText paras), source, none, none⟩]

/-- One worksheet row of `extract_text_from_xlsx`: keep non-`None` cells
(already serialised by `str`), join with `" | "`, append a newline; rows
with no occupied cell contribute nothing. -/
def xlsxRowText (row : List (Option (List Char))) : List Char :=
  let rowText := row.filterMap id
  if rowText = [] then [] else joinSep [' ', '|', ' '] rowText ++ ['\n']

/-- The accumulated sheet text (rows of all sheets in order). -/
def xlsxText (rows : List (List (Option (List Char)))) : List Char :=
  rows.flatMap xlsxRowText

/-- `extract_text_from_xlsx`: one document with the stripped serialised
text on success, `[]` on a caught failure. -/
def extract_text_from_xlsx (source : String)
    (input : Except Unit (List (List (Option (List Char))))) : List Doc :=
  match input with
  | .error _ => []
  | .ok rows => [⟨stripL (xlsxText rows), source, none, none⟩]

/-- The per-file payload dispatched on by `load_documents_from_folder`:
supported suffixes carry the (possibly failed) extraction input, anything
else is skipped. -/
inductive FileData where
  | pdf : Except Unit (List (List Char)) → FileData
  | docx : Except Unit (List (List Char)) → FileData
  | xlsx : Except Unit (List (List (Option (List Char)))) → FileData
  | other : FileData

structure FSFile where
  name : String
  data : FileData

/-- The loader's dispatch on the file suffix. -/
def processFile (f : FSFile) : List Doc :=
  match f.data with
  | .pdf input => extract_text_from_pdf f.name input
  | .docx input => extract_text_from_docx f.name input
  | .xlsx input => extract_text_from_xlsx f.name input
  | .other => []

/-- `load_documents_from_folder` over the folder's file list: extend
`all_docs` with each file's documents in order and continue; files with no
documents (including failed extractions) contribute nothing. -/
def load_documents_from_folder (files : List FSFile) : List Doc :=
  files.flatMap processFile

/-! ### Concrete documents used by witnesses and counterexamples -/

def cexA : Doc := ⟨['A'], "f.pdf", some 1, none⟩

def cexB : Doc := ⟨['B'], "f.pdf", some 1, none⟩

def cexBig : Doc := ⟨List.replicate 4001 'a', "big.pdf", some 1, none⟩

def cex500 : Doc := ⟨List.replicate 500 'a', "f.pdf", some 1, none⟩

def doc3000 : Doc := ⟨List.replicate 3000 'a', "a.pdf", some 1, none⟩

def doc10b : Doc := ⟨List.replicate 10 'b', "a.pdf", some 2, none⟩

def doc10c : Doc := ⟨List.replicate 10 'c', "a.pdf", some 3, none⟩

/-! ### Retrieval fusion lemmas -/

theorem dedupMerge_sublist : ∀ (l : List Doc) (seen), (dedupMerge seen l).Sublist l := by
  intro l
  induction l with
  | nil => intro seen; simp [dedupMerge]
  | cons d r ih =>
    intro seen
    unfold dedupMerge
    split
    · exact (ih seen).cons d
    · exact (ih (key3 d :: seen)).cons₂ d

theorem dedupMerge_keys : ∀ (l : List Doc) (seen),
    List.Pairwise (fun a b => key3 a ≠ key3 b) (dedupMerge seen l) ∧
    ∀ d ∈ dedupMerge seen l, key3 d ∉ seen := by
  intro l
  induction l with
  | nil => intro seen; simp [dedupMerge]
  | cons d r ih =>
    intro seen
    unfold dedupMerge
    split
    · exact ih seen
    · rename_i hd
      obtain ⟨hpw, hnotin⟩ := ih (key3 d :: seen)
      refine ⟨List.pairwise_cons.mpr ⟨?_, hpw⟩, ?_⟩
      · intro e he heq
        exact hnotin e he (by rw [← heq]; exact List.mem_cons_self _ _)
      · intro e he
        rcases List.mem_cons.mp he with h | h
        · subst h; exact hd
        · intro hs
          exact hnotin e h (List.mem_cons_of_mem _ hs)

/-- Claim C1 (amended): the fused sequence has length at most `k` and no two
entries share the merge key `(source, page_number, content[:50])`. -/
theorem c1_fusion_bounded_key3_dedup (k : Nat) (sparse_docs dense_docs : List Doc) :
    (hybrid_get_relevant_documents k sparse_docs dense_docs).length ≤ k ∧
    List.Pairwise (fun a b => key3 a ≠ key3 b)
      (hybrid_get_relevant_documents k sparse_docs dense_docs) := by
  constructor
  · exact List.length_take_le k _
  · exact ((dedupMerge_keys _ _).1).sublist (List.take_sublist _ _)

/-- Claim C1 counterexample: two chunks with the same `(source, page_number)`
but different content both survive the merge, so the fused output does
contain two chunks whose `(source, page_number)` pairs are equal. -/
theorem c1_counterexample :
    hybrid_get_relevant_documents 2 [cexA] [cexB] = [cexA, cexB] ∧
    key2 cexA = key2 cexB ∧ cexA ≠ cexB := by
  refine ⟨?_, by decide, by decide⟩
  decide

/-- Claim C6: with one empty retriever the fusion returns exactly the other
retriever's results after self-deduplication, their order preserved (the
dedup-filtered list is a sublist of the input); with both empty it returns
the empty sequence. -/
theorem c6_fusion_empty_sides (k : Nat) (sparse_docs dense_docs : List Doc) :
    (dense_docs = [] → sparse_docs.length ≤ k →
      hybrid_get_relevant_documents k sparse_docs dense_docs = dedupMerge [] sparse_docs ∧
      (dedupMerge [] sparse_docs).Sublist sparse_docs) ∧
    (sparse_docs = [] → dense_docs.length ≤ k →
      hybrid_get_relevant_documents k sparse_docs dense_docs = dedupMerge [] dense_docs ∧
      (dedupMerge [] dense_docs).Sublist dense_docs) ∧
    (sparse_docs = [] → dense_docs = [] →
      hybrid_get_relevant_documents k sparse_docs dense_docs = []) := by
  refine ⟨?_, ?_, ?_⟩
  · intro hd hk
    subst hd
    refine ⟨?_, dedupMerge_sublist _ _⟩
    unfold hybrid_get_relevant_documents
    rw [List.append_nil]
    exact List.take_of_length_le (le_trans (dedupMerge_sublist _ _).length_le hk)
  · intro hs hk
    subst hs
    refine ⟨?_, dedupMerge_sublist _ _⟩
    unfold hybrid_get_relevant_documents
    rw [List.nil_append]
    exact List.take_of_length_le (le_trans (dedupMerge_sublist _ _).length_le hk)
  · intro hs hd
    subst hs; subst hd
    simp [hybrid_get_relevant_documents, dedupMerge]

/-- Witness for C6 at concrete inputs. -/
theorem c6_fusion_empty_sides_witness :
    (hybrid_get_relevant_documents 2 [cexA] [] = dedupMerge [] [cexA] ∧
      (dedupMerge [] [cexA]).Sublist [cexA]) ∧
    hybrid_get_relevant_documents 2 [] [] = [] := by
  exact ⟨(c6_fusion_empty_sides 2 [cexA] []).1 rfl (by decide),
    (c6_fusion_empty_sides 2 [] []).2.2 rfl rfl⟩

/-! ### Whitespace and strip lemmas -/

/-- All characters of a list are whitespace. -/
def allWS (l : List Char) : Prop := ∀ c ∈ l, isWS c = true

theorem mem_takeWhile_ws {p : Char → Bool} : ∀ {l : List Char} {c : Char},
    c ∈ l.takeWhile p → p c = true := by
  intro l
  induction l with
  | nil => intro c h; simp [List.takeWhile] at h
  | cons a t ih =>
    intro c h
    rw [List.takeWhile_cons] at h
    by_cases hp : p a = true
    · simp only [hp, if_true, List.mem_cons] at h
      rcases h with h | h
      · subst h; exact hp
      · exact ih h
    · simp only [hp, if_false, Bool.false_eq_true, List.not_mem_nil] at h

theorem dropWhile_head_not {p : Char → Bool} : ∀ {l : List Char} {c : Char} {r : List Char},
    l.dropWhile p = c :: r → p c = false := by
  intro l
  induction l with
  | nil => intro c r h; simp [List.dropWhile] at h
  | cons a t ih =>
    intro c r h
    rw [List.dropWhile_cons] at h
    by_cases hp : p a = true
    · rw [if_pos hp] at h
      exact ih h
    · rw [if_neg hp] at h
      cases h
      exact Bool.not_eq_true _ |>.mp hp

theorem dropWhile_eq_of_allWS : ∀ {l : List Char}, allWS l → l.dropWhile isWS = [] := by
  intro l
  induction l with
  | nil => intro _; rfl
  | cons a t ih =>
    intro h
    rw [List.dropWhile_cons, if_pos (h a (List.mem_cons_self _ _))]
    exact ih (fun c hc => h c (List.mem_cons_of_mem _ hc))

/-- The stripped list together with the trailing whitespace reconstitutes
the leading-whitespace-free part. -/
theorem stripL_decomp_right (s : List Char) :
    ∃ w2, allWS w2 ∧ s.dropWhile isWS = stripL s ++ w2 := by
  refine ⟨((s.dropWhile isWS).reverse.takeWhile isWS).reverse, ?_, ?_⟩
  · intro c hc
    exact mem_takeWhile_ws (List.mem_reverse.mp hc)
  · unfold stripL
    rw [← List.reverse_append, List.takeWhile_append_dropWhile, List.reverse_reverse]

theorem stripL_decomp (s : List Char) :
    ∃ w1 w2, allWS w1 ∧ allWS w2 ∧ s = w1 ++ stripL s ++ w2 := by
  obtain ⟨w2, hw2, h2⟩ := stripL_decomp_right s
  refine ⟨s.takeWhile isWS, w2, ?_, hw2, ?_⟩
  · intro c hc; exact mem_takeWhile_ws hc
  · conv_lhs => rw [← List.takeWhile_append_dropWhile (p := isWS) (l := s)]
    rw [h2, List.append_assoc]

theorem stripL_length_le (s : List Char) : (stripL s).length ≤ s.length := by
  obtain ⟨w1, w2, _, _, h⟩ := stripL_decomp s
  have hlen := congrArg List.length h
  simp [List.length_append] at hlen
  omega

theorem stripL_eq_nil_iff {s : List Char} : stripL s = [] ↔ allWS s := by
  constructor
  · intro h
    obtain ⟨w1, w2, hw1, hw2, hs⟩ := stripL_decomp s
    rw [h] at hs
    intro c hc
    rw [hs] at hc
    rcases List.mem_append.mp hc with hmem | hmem
    · rcases List.mem_append.mp hmem with hmem | hmem
      · exact hw1 c hmem
      · simp at hmem
    · exact hw2 c hmem
  · intro h
    unfold stripL
    rw [dropWhile_eq_of_allWS h]
    rfl

theorem stripL_head_not_ws {s : List Char} {c : Char} {r : List Char}
    (h : stripL s = c :: r) : isWS c = false := by
  obtain ⟨w2, _, h2⟩ := stripL_decomp_right s
  rw [h] at h2
  exact dropWhile_head_not (by rw [h2]; rfl)

theorem stripL_getLast_not_ws {s : List Char} {c : Char}
    (h : (stripL s).getLast? = some c) : isWS c = false := by
  unfold stripL at h
  rw [List.getLast?_reverse] at h
  cases hd : ((s.dropWhile isWS).reverse.dropWhile isWS) with
  | nil => rw [hd] at h; simp at h
  | cons x xs =>
    rw [hd] at h
    simp at h
    rw [← h]
    exact dropWhile_head_not hd

/-- A non-empty list whose first and last characters are not whitespace is
its own strip. -/
theorem stripL_eq_self {s : List Char} {c d : Char} {r : List Char}
    (hs : s = c :: r) (hc : isWS c = false) (hd : s.getLast? = some d)
    (hdw : isWS d = false) : stripL s = s := by
  subst hs
  unfold stripL
  rw [List.dropWhile_cons, if_neg (by simp [hc])]
  have hrev : (c :: r).reverse.head? = some d := by
    rw [List.head?_reverse]
    exact hd
  cases hrv : (c :: r).reverse with
  | nil => simp at hrv
  | cons x xs =>
    rw [hrv] at hrev
    simp at hrev
    subst hrev
    rw [List.dropWhile_cons, if_neg (by simp [hdw]), ← hrv, List.reverse_reverse]

/-! ### Assembler lemmas -/

theorem walkGo_sum_le (b : Nat) : ∀ (l : List Doc) (seen : List (String × Option Nat))
    (total : Nat), total ≤ b → total + sumLens (walkGo b l seen total) ≤ b := by
  intro l
  induction l with
  | nil => intro seen total h; simpa [walkGo, sumLens] using h
  | cons d r ih =>
    intro seen total h
    unfold walkGo
    split
    · exact ih seen total h
    · split
      · rename_i hfit
        have := ih (key2 d :: seen) (total + (stripL d.content).length) hfit
        simp only [sumLens]
        omega
      · simpa [sumLens] using h

theorem walkGo_prefix_char (b : Nat) : ∀ (l : List Doc)
    (seen : List (String × Option Nat)) (total : Nat),
    ∃ n, n ≤ l.length ∧
      walkGo b l seen total = dedupAll seen (l.take n) ∧
      (n = l.length ∨ ∃ h : n < l.length,
        key2 (l.get ⟨n, h⟩) ∉ seen ∧
        key2 (l.get ⟨n, h⟩) ∉ (walkGo b l seen total).map key2 ∧
        b < total + sumLens (walkGo b l seen total) +
          (stripL ((l.get ⟨n, h⟩).content)).length) := by
  intro l
  induction l with
  | nil =>
    intro seen total
    exact ⟨0, Nat.le_refl _, rfl, Or.inl rfl⟩
  | cons d r ih =>
    intro seen total
    by_cases hdup : key2 d ∈ seen
    · obtain ⟨n, hn, heq, hbr⟩ := ih seen total
      have hw : walkGo b (d :: r) seen total = walkGo b r seen total := by
        rw [walkGo, if_pos hdup]
      refine ⟨n + 1, by simpa using Nat.succ_le_succ hn, ?_, ?_⟩
      · rw [hw, heq, List.take_succ_cons, dedupAll, if_pos hdup]
      · rcases hbr with h | ⟨h, h1, h2, h3⟩
        · exact Or.inl (by simp [h])
        · refine Or.inr ⟨Nat.succ_lt_succ h, ?_⟩
          simp only [List.get_cons_succ]
          exact ⟨h1, by rw [hw]; exact h2, by rw [hw]; exact h3⟩
    · by_cases hfit : total + (stripL d.content).length ≤ b
      · obtain ⟨n, hn, heq, hbr⟩ :=
          ih (key2 d :: seen) (total + (stripL d.content).length)
        have hw : walkGo b (d :: r) seen total =
            d :: walkGo b r (key2 d :: seen) (total + (stripL d.content).length) := by
          rw [walkGo, if_neg hdup, if_pos hfit]
        refine ⟨n + 1, by simpa using Nat.succ_le_succ hn, ?_, ?_⟩
        · rw [hw, heq, List.take_succ_cons, dedupAll, if_neg hdup]
        · rcases hbr with h | ⟨h, h1, h2, h3⟩
          · exact Or.inl (by simp [h])
          · refine Or.inr ⟨Nat.succ_lt_succ h, ?_⟩
            simp only [List.get_cons_succ]
            refine ⟨?_, ?_, ?_⟩
            · intro hs
              exact h1 (List.mem_cons_of_mem _ hs)
            · rw [hw]
              simp only [List.map_cons, List.mem_cons]
              push_neg
              refine ⟨?_, h2⟩
              intro heqk
              exact h1 (by rw [heqk]; exact List.mem_cons_self _ _)
            · rw [hw]
              simp only [sumLens] at h3 ⊢
              omega
      · have hw : walkGo b (d :: r) seen total = [] := by
          rw [walkGo, if_neg hdup, if_neg hfit]
        refine ⟨0, Nat.zero_le _, ?_, ?_⟩
        · rw [hw]; rfl
        · refine Or.inr ⟨Nat.succ_pos _, ?_⟩
          refine ⟨hdup, ?_, ?_⟩
          · rw [hw]; simp
          · rw [hw]
            show b < total + sumLens ([] : List Doc) + (stripL d.content).length
            simp only [sumLens]
            omega

/-- Claim C3: the included chunks' stripped lengths total at most 4000, and
the walk is an all-inclusive dedup of a prefix of the sorted sequence that
either is the whole sequence or stops exactly at a key-new chunk that would
overflow the budget — nothing after that point is included. -/
theorem c3_budget_and_stop (docs : List Doc) :
    sumLens (assembleIncluded 4000 docs) ≤ 4000 ∧
    ∃ n, n ≤ (sortByLen docs).length ∧
      assembleIncluded 4000 docs = dedupAll [] ((sortByLen docs).take n) ∧
      (n = (sortByLen docs).length ∨ ∃ h : n < (sortByLen docs).length,
        key2 ((sortByLen docs).get ⟨n, h⟩) ∉ (assembleIncluded 4000 docs).map key2 ∧
        4000 < sumLens (assembleIncluded 4000 docs) +
          (stripL (((sortByLen docs).get ⟨n, h⟩).content)).length) := by
  constructor
  · have := walkGo_sum_le 4000 (sortByLen docs) [] 0 (by omega)
    simpa [assembleIncluded] using this
  · obtain ⟨n, hn, heq, hbr⟩ := walkGo_prefix_char 4000 (sortByLen docs) [] 0
    refine ⟨n, hn, heq, ?_⟩
    rcases hbr with h | ⟨h, _, h2, h3⟩
    · exact Or.inl h
    · exact Or.inr ⟨h, h2, by simpa [assembleIncluded] using h3⟩

/-! ### Sorting lemmas -/

theorem insLe_perm (d : Doc) : ∀ l : List Doc, (insLe d l).Perm (d :: l) := by
  intro l
  induction l with
  | nil => exact List.Perm.refl _
  | cons e r ih =>
    unfold insLe
    split
    · exact (ih.cons e).trans (List.Perm.swap d e r)
    · exact List.Perm.refl _

theorem sortByLen_perm (l : List Doc) : (sortByLen l).Perm l := by
  induction l with
  | nil => exact List.Perm.refl _
  | cons d r ih =>
    have : sortByLen (d :: r) = insLe d (sortByLen r) := rfl
    rw [this]
    exact (insLe_perm d (sortByLen r)).trans (ih.cons d)

theorem insLe_pairwise (d : Doc) : ∀ {l : List Doc},
    List.Pairwise lenLe l → List.Pairwise lenLe (insLe d l) := by
  intro l
  induction l with
  | nil => intro _; simp [insLe, List.pairwise_cons]
  | cons e r ih =>
    intro h
    obtain ⟨he, hr⟩ := List.pairwise_cons.mp h
    unfold insLe
    split
    · rename_i hlt
      refine List.pairwise_cons.mpr ⟨?_, ih hr⟩
      intro x hx
      rcases List.mem_cons.mp ((insLe_perm d r).mem_iff.mp hx) with hx | hx
      · subst hx; exact Nat.le_of_lt hlt
      · exact he x hx
    · rename_i hge
      refine List.pairwise_cons.mpr ⟨?_, h⟩
      intro x hx
      rcases List.mem_cons.mp hx with hx | hx
      · subst hx; exact Nat.le_of_not_lt hge
      · exact le_trans (Nat.le_of_not_lt hge) (he x hx)

theorem sortByLen_pairwise (l : List Doc) : List.Pairwise lenLe (sortByLen l) := by
  induction l with
  | nil => simp [sortByLen]
  | cons d r ih => exact insLe_pairwise d ih

theorem sumLens_eq_map_sum (l : List Doc) :
    sumLens l = (l.map (fun d => (stripL d.content).length)).sum := by
  induction l with
  | nil => rfl
  | cons d r ih => simp [sumLens, ih]

theorem sumLens_perm {l₁ l₂ : List Doc} (h : l₁.Perm l₂) : sumLens l₁ = sumLens l₂ := by
  rw [sumLens_eq_map_sum, sumLens_eq_map_sum]
  exact (h.map _).sum_eq

theorem walkGo_all_fit (b : Nat) : ∀ (l : List Doc)
    (seen : List (String × Option Nat)) (total : Nat),
    (∀ d ∈ l, key2 d ∉ seen) →
    List.Pairwise (fun a b => key2 a ≠ key2 b) l →
    total + sumLens l ≤ b →
    walkGo b l seen total = l := by
  intro l
  induction l with
  | nil => intro seen total _ _ _; rfl
  | cons d r ih =>
    intro seen total hseen hpw hsum
    obtain ⟨hd, hr⟩ := List.pairwise_cons.mp hpw
    simp only [sumLens] at hsum
    unfold walkGo
    rw [if_neg (hseen d (List.mem_cons_self _ _)), if_pos (by omega)]
    congr 1
    refine ih (key2 d :: seen) (total + (stripL d.content).length) ?_ hr (by omega)
    intro e he hmem
    rcases List.mem_cons.mp hmem with h | h
    · exact hd e he h.symm
    · exact hseen e (List.mem_cons_of_mem _ he) h

/-- Claim C5: the assembler processes chunks in ascending content length,
and for any ordering of three chunks of raw lengths 3000, 10, 10 from three
distinct `(source, page_number)` keys the included list is a permutation of
all three (every chunk is included). -/
theorem c5_shortest_first_all_included (a b c : Doc) (l : List Doc)
    (ha : a.content.length = 3000) (hb : b.content.length = 10)
    (hc : c.content.length = 10)
    (hab : key2 a ≠ key2 b) (hac : key2 a ≠ key2 c) (hbc : key2 b ≠ key2 c)
    (hl : l.Perm [a, b, c]) :
    List.Pairwise lenLe (sortByLen l) ∧
    (assembleIncluded 4000 l).Perm [a, b, c] ∧
    a ∈ assembleIncluded 4000 l ∧ b ∈ assembleIncluded 4000 l ∧
    c ∈ assembleIncluded 4000 l := by
  have hs : (sortByLen l).Perm [a, b, c] := (sortByLen_perm l).trans hl
  have hpw : List.Pairwise (fun x y : Doc => key2 x ≠ key2 y) (sortByLen l) := by
    refine (List.Perm.pairwise_iff (fun {x y} h => Ne.symm h) hs).mpr ?_
    refine List.Pairwise.cons ?_ (List.Pairwise.cons ?_ (List.pairwise_singleton _ _))
    · intro x hx
      rcases List.mem_cons.mp hx with hx | hx
      · subst hx; exact hab
      · rcases List.mem_cons.mp hx with hx | hx
        · subst hx; exact hac
        · simp at hx
    · intro x hx
      rcases List.mem_cons.mp hx with hx | hx
      · subst hx; exact hbc
      · simp at hx
  have hsum : sumLens (sortByLen l) ≤ 4000 := by
    rw [sumLens_perm hs]
    have la : (stripL a.content).length ≤ 3000 := ha ▸ stripL_length_le a.content
    have lb : (stripL b.content).length ≤ 10 := hb ▸ stripL_length_le b.content
    have lc : (stripL c.content).length ≤ 10 := hc ▸ stripL_length_le c.content
    simp only [sumLens]
    omega
  have hwalk : assembleIncluded 4000 l = sortByLen l := by
    unfold assembleIncluded
    exact walkGo_all_fit 4000 (sortByLen l) [] 0 (by simp) hpw (by omega)
  refine ⟨sortByLen_pairwise l, hwalk ▸ hs, ?_, ?_, ?_⟩ <;>
    · rw [hwalk]
      exact hs.mem_iff.mpr (by simp)

/-- Witness for C5 at three concrete replicate-content documents. -/
theorem c5_shortest_first_all_included_witness :
    doc3000.content.length = 3000 ∧ doc10b.content.length = 10 ∧
    doc10c.content.length = 10 ∧
    (assembleIncluded 4000 [doc3000, doc10b, doc10c]).Perm [doc3000, doc10b, doc10c] := by
  have h := c5_shortest_first_all_included doc3000 doc10b doc10c
    [doc3000, doc10b, doc10c]
    (by simp only [doc3000, List.length_replicate])
    (by simp only [doc10b, List.length_replicate])
    (by simp only [doc10c, List.length_replicate])
    (by decide) (by decide) (by decide) (List.Perm.refl _)
  exact ⟨by simp only [doc3000, List.length_replicate],
    by simp only [doc10b, List.length_replicate],
    by simp only [doc10c, List.length_replicate], h.2.1⟩

theorem stripL_replicate (n : Nat) (c : Char) (hc : isWS c = false) :
    stripL (List.replicate n c) = List.replicate n c := by
  cases n with
  | zero => rfl
  | succ m =>
    unfold stripL
    rw [List.replicate_succ, List.dropWhile_cons, if_neg (by simp [hc])]
    rw [← List.replicate_succ, List.reverse_replicate]
    rw [List.replicate_succ, List.dropWhile_cons, if_neg (by simp [hc])]
    rw [← List.replicate_succ, List.reverse_replicate]

theorem included_big_empty : assembleIncluded 4000 [cexBig] = [] := by
  have hs : sortByLen [cexBig] = [cexBig] := rfl
  have hlen : (stripL cexBig.content).length = 4001 := by
    show (stripL (List.replicate 4001 'a')).length = 4001
    rw [stripL_replicate 4001 'a' (by decide), List.length_replicate]
  unfold assembleIncluded
  rw [hs, walkGo, if_neg (by simp), if_neg (by rw [hlen]; omega)]

/-- Claim C4 (amended): when the best chunk alone exceeds the budget the
assembler returns an empty included list and `ask` answers with the
fallback response rather than any truncated fragment — but this is the
same response as the empty-retrieval outcome, not an observably distinct
signal. -/
theorem c4_empty_included_fallback :
    (∀ d : Doc, (stripL d.content).length = 500 → assembleIncluded 50 [d] = []) ∧
    (∀ docs : List Doc, docs ≠ [] → assembleIncluded 4000 docs = [] →
      askEarly docs = some fallbackResponse) := by
  constructor
  · intro d h500
    have hs : sortByLen [d] = [d] := rfl
    unfold assembleIncluded
    rw [hs, walkGo, if_neg (by simp), if_neg (by rw [h500]; omega)]
  · intro docs hne hempty
    unfold askEarly
    rw [if_neg hne, if_pos hempty]

/-- Claim C4 counterexample: the response on the budget-exhausted-empty
path is identical to the response on the empty-retrieval path (same
message, same empty source list), so the two outcomes are not distinct in
the code. -/
theorem c4_counterexample :
    askEarly [] = some fallbackResponse ∧
    askEarly [cexBig] = some fallbackResponse ∧
    assembleIncluded 4000 [cexBig] = [] ∧ ([cexBig] : List Doc) ≠ [] := by
  refine ⟨rfl, ?_, included_big_empty, by simp⟩
  unfold askEarly
  rw [if_neg (by simp), if_pos included_big_empty]

/-- Witness for the amended C4 at a 500-character chunk and budget 50, and
at a 4001-character chunk under the hard-coded 4000 budget. -/
theorem c4_empty_included_fallback_witness :
    (stripL cex500.content).length = 500 ∧ assembleIncluded 50 [cex500] = [] ∧
    askEarly [cexBig] = some fallbackResponse := by
  have h500 : (stripL cex500.content).length = 500 := by
    show (stripL (List.replicate 500 'a')).length = 500
    rw [stripL_replicate 500 'a' (by decide), List.length_replicate]
  exact ⟨h500, c4_empty_included_fallback.1 cex500 h500,
    c4_empty_included_fallback.2 [cexBig] (by simp) included_big_empty⟩

/-- Claim C2 (code bug evidence): for the page text
`"Erste Zeile\nzweite Zeile"` the merged logical lines are the single line
`"Erste Zeile zweite Zeile"`, but the page string actually handed to the
chunking split is the unmerged original, so it differs from any reassembly
of the merged lines; and for `"Alpha\nBeta"` the case-insensitive merge
regex also merges the uppercase-starting second line, contradicting the
lowercase-only heuristic. -/
theorem c2_code_divergence :
    pageText (("Erste Zeile\nzweite Zeile").toList) =
      ("Erste Zeile\nzweite Zeile").toList ∧
    mergeLines (splitlines (("Erste Zeile\nzweite Zeile").toList)) =
      [("Erste Zeile zweite Zeile").toList] ∧
    pageText (("Erste Zeile\nzweite Zeile").toList) ≠
      joinSep ['\n'] (mergeLines (splitlines (("Erste Zeile\nzweite Zeile").toList))) ∧
    mergeLines (splitlines (("Alpha\nBeta").toList)) = [("Alpha Beta").toList] := by
  refine ⟨?_, ?_, ?_, ?_⟩ <;> decide

/-- Claim C7: a caught extraction failure yields zero chunks for that file,
and the batch result is exactly the other files' chunks — the loader
continues with the files after the failing one. -/
theorem c7_extraction_failure_isolated (pre post : List FSFile) (name : String) :
    extract_text_from_pdf name (Except.error ()) = [] ∧
    extract_text_from_docx name (Except.error ()) = [] ∧
    extract_text_from_xlsx name (Except.error ()) = [] ∧
    load_documents_from_folder (pre ++ ⟨name, FileData.pdf (Except.error ())⟩ :: post) =
      load_documents_from_folder pre ++ load_documents_from_folder post ∧
    load_documents_from_folder (pre ++ ⟨name, FileData.docx (Except.error ())⟩ :: post) =
      load_documents_from_folder pre ++ load_documents_from_folder post ∧
    load_documents_from_folder (pre ++ ⟨name, FileData.xlsx (Except.error ())⟩ :: post) =
      load_documents_from_folder pre ++ load_documents_from_folder post := by
  refine ⟨rfl, rfl, rfl, ?_, ?_, ?_⟩ <;>
  · simp [load_documents_from_folder, processFile, extract_text_from_pdf,
      extract_text_from_docx, extract_text_from_xlsx]

/-! ### Chunk shape lemmas (PDF segmentation) -/

theorem emitChunk_head (x : List Char) : (emitChunk x).head? = some '§' := by
  unfold emitChunk
  split
  · assumption
  · rfl

theorem mem_chunkify {s c : List Char} (h : c ∈ chunkify s) :
    ∃ piece ∈ resplit s, stripL piece ≠ [] ∧ c = emitChunk (stripL piece) := by
  unfold chunkify at h
  rcases List.mem_map.mp h with ⟨x, hx, hcx⟩
  rcases List.mem_filter.mp hx with ⟨hx2, hne⟩
  rcases List.mem_map.mp hx2 with ⟨piece, hp, hsp⟩
  refine ⟨piece, hp, ?_, ?_⟩
  · rw [hsp]; simpa using hne
  · rw [← hcx, ← hsp]

theorem chunkify_head {s c : List Char} (h : c ∈ chunkify s) : c.head? = some '§' := by
  obtain ⟨piece, _, _, hc⟩ := mem_chunkify h
  rw [hc]
  exact emitChunk_head _

theorem getLast?_of_ne_nil {l : List Char} (h : l ≠ []) : ∃ d, l.getLast? = some d := by
  cases hl : l.getLast? with
  | some d => exact ⟨d, rfl⟩
  | none => exact absurd (List.getLast?_eq_none_iff.mp hl) h

theorem stripL_idem (s : List Char) : stripL (stripL s) = stripL s := by
  cases hs : stripL s with
  | nil => rfl
  | cons c r =>
    have hc : isWS c = false := stripL_head_not_ws hs
    obtain ⟨d, hd⟩ := getLast?_of_ne_nil (l := c :: r) (by simp)
    have hd' : (stripL s).getLast? = some d := by rw [hs]; exact hd
    exact stripL_eq_self rfl hc hd (stripL_getLast_not_ws hd')

/-- An emitted chunk (built from a non-empty stripped piece) is its own
strip and is non-empty. -/
theorem chunkify_strip_eq {s c : List Char} (h : c ∈ chunkify s) :
    stripL c = c ∧ c ≠ [] := by
  obtain ⟨piece, _, hnp, hc⟩ := mem_chunkify h
  have hxs : stripL (stripL piece) = stripL piece := stripL_idem piece
  obtain ⟨d, hd⟩ := getLast?_of_ne_nil hnp
  have hdw : isWS d = false := stripL_getLast_not_ws hd
  unfold emitChunk at hc
  by_cases hh : (stripL piece).head? = some '§'
  · rw [if_pos hh] at hc
    subst hc
    exact ⟨hxs, hnp⟩
  · rw [if_neg hh] at hc
    subst hc
    refine ⟨?_, by simp⟩
    cases hx : stripL piece with
    | nil => exact absurd hx hnp
    | cons a t =>
      have hlast : ('§' :: ' ' :: (a :: t)).getLast? = some d := by
        rw [List.getLast?_cons_cons, List.getLast?_cons_cons, ← hx]
        exact hd
      exact stripL_eq_self rfl (by decide) hlast hdw

/-! ### PDF extractor invariants (C10) -/

theorem extractPdfFrom_mem (source : String) : ∀ (pages : List (List Char)) (i : Nat)
    (d : Doc), d ∈ extractPdfFrom source i pages →
    d.content.head? = some '§' ∧
    ∃ j, ∃ h : j < pages.length, d ∈ pdfPageDocs source (i + j) (pages.get ⟨j, h⟩) ∧
      d.page_number = some (i + j + 1) := by
  intro pages
  induction pages with
  | nil => intro i d h; simp [extractPdfFrom] at h
  | cons raw rest ih =>
    intro i d h
    rw [extractPdfFrom] at h
    rcases List.mem_append.mp h with h | h
    · refine ⟨?_, 0, Nat.succ_pos _, by simpa using h, ?_⟩
      · rcases List.mem_map.mp h with ⟨c, hc, hd⟩
        rw [← hd]
        exact chunkify_head hc
      · rcases List.mem_map.mp h with ⟨c, hc, hd⟩
        rw [← hd]
    · obtain ⟨hh, j, hj, hmem, hpn⟩ := ih (i + 1) d h
      refine ⟨hh, j + 1, Nat.succ_lt_succ hj, ?_, ?_⟩
      · simp only [List.get_cons_succ]
        have harith : i + (j + 1) = i + 1 + j := by omega
        rw [harith]
        exact hmem
      · rw [hpn]
        congr 2
        omega

/-- Claim C10: every chunk emitted by the PDF extractor has content
beginning with `§` and carries `page_number` equal to its 1-based page
index (hence at least 1). -/
theorem c10_pdf_chunk_invariants (source : String)
    (input : Except Unit (List (List Char))) (d : Doc)
    (h : d ∈ extract_text_from_pdf source input) :
    d.content.head? = some '§' ∧
    ∃ pages, input = Except.ok pages ∧
      ∃ j, ∃ hj : j < pages.length, d ∈ pdfPageDocs source j (pages.get ⟨j, hj⟩) ∧
        d.page_number = some (j + 1) ∧ 1 ≤ j + 1 := by
  cases input with
  | error e => simp [extract_text_from_pdf] at h
  | ok pages =>
    obtain ⟨hh, j, hj, hmem, hpn⟩ := extractPdfFrom_mem source pages 0 d h
    exact ⟨hh, pages, rfl, j, hj, by simpa using hmem, by simpa using hpn,
      Nat.le_add_left 1 j⟩

def c10doc : Doc := ⟨("§ 1 Abc").toList, "w.pdf", some 1, some ['1']⟩

/-- Witness for C10 on a one-page PDF. -/
theorem c10_pdf_chunk_invariants_witness :
    c10doc ∈ extract_text_from_pdf "w.pdf" (Except.ok [("§ 1 Abc").toList]) ∧
    c10doc.content.head? = some '§' ∧ c10doc.page_number = some 1 := by
  have hmem : c10doc ∈ extract_text_from_pdf "w.pdf" (Except.ok [("§ 1 Abc").toList]) := by
    decide
  have h := c10_pdf_chunk_invariants "w.pdf" (Except.ok [("§ 1 Abc").toList]) c10doc hmem
  exact ⟨hmem, h.1, by decide⟩

/-! ### Join membership lemmas (C8) -/

theorem mem_joinSep {sep : List Char} : ∀ {l : List (List Char)} {x : List Char} {ch : Char},
    x ∈ l → ch ∈ x → ch ∈ joinSep sep l := by
  intro l
  induction l with
  | nil => intro x ch hx _; simp at hx
  | cons y rest ih =>
    intro x ch hx hch
    cases rest with
    | nil =>
      rcases List.mem_cons.mp hx with hx | hx
      · subst hx
        simpa [joinSep] using hch
      · simp at hx
    | cons z zs =>
      rcases List.mem_cons.mp hx with hx | hx
      · subst hx
        rw [joinSep]
        exact List.mem_append.mpr (Or.inl (List.mem_append.mpr (Or.inl hch)))
      · rw [joinSep]
        exact List.mem_append.mpr (Or.inr (ih hx hch))

theorem joinSep_mem_decomp {sep : List Char} : ∀ {l : List (List Char)} {ch : Char},
    ch ∈ joinSep sep l → ch ∈ sep ∨ ∃ x ∈ l, ch ∈ x := by
  intro l
  induction l with
  | nil => intro ch h; simp [joinSep] at h
  | cons y rest ih =>
    intro ch h
    cases rest with
    | nil =>
      right
      exact ⟨y, List.mem_cons_self _ _, by simpa [joinSep] using h⟩
    | cons z zs =>
      rw [joinSep] at h
      rcases List.mem_append.mp h with h | h
      · rcases List.mem_append.mp h with h | h
        · exact Or.inr ⟨y, List.mem_cons_self _ _, h⟩
        · exact Or.inl h
      · rcases ih h with h | ⟨x, hx, hchx⟩
        · exact Or.inl h
        · exact Or.inr ⟨x, List.mem_cons_of_mem _ hx, hchx⟩

theorem not_allWS_of_strip_ne_nil {p : List Char} (h : stripL p ≠ []) :
    ∃ ch ∈ p, isWS ch = false := by
  by_contra hcon
  push_neg at hcon
  refine h (stripL_eq_nil_iff.mpr ?_)
  intro c hc
  have := hcon c hc
  simpa using this

/-- The DOCX full text is whitespace-only exactly when every paragraph is. -/
theorem docx_content_iff (paras : List (List Char)) :
    stripL (docxFullText paras) = [] ↔ ∀ p ∈ paras, stripL p = [] := by
  constructor
  · intro h p hp
    by_contra hne
    obtain ⟨ch, hchp, hchw⟩ := not_allWS_of_strip_ne_nil hne
    have hpf : p ∈ paras.filter (fun q => stripL q ≠ []) :=
      List.mem_filter.mpr ⟨hp, by simpa using hne⟩
    have hchj : ch ∈ docxFullText paras := mem_joinSep hpf hchp
    have := stripL_eq_nil_iff.mp h ch hchj
    rw [this] at hchw
    exact absurd hchw (by simp)
  · intro h
    have hfil : paras.filter (fun q => stripL q ≠ []) = [] := by
      rw [List.filter_eq_nil_iff]
      intro p hp
      simp [h p hp]
    unfold docxFullText
    rw [hfil]
    rfl

/-- A non-whitespace character in an occupied cell survives into the
stripped sheet text. -/
theorem xlsx_nonempty_of_cell {rows : List (List (Option (List Char)))}
    {row : List (Option (List Char))} {v : List Char}
    (hrow : row ∈ rows) (hv : some v ∈ row) (hnv : stripL v ≠ []) :
    stripL (xlsxText rows) ≠ [] := by
  obtain ⟨ch, hchv, hchw⟩ := not_allWS_of_strip_ne_nil hnv
  have hvrt : v ∈ row.filterMap id := List.mem_filterMap.mpr ⟨some v, hv, rfl⟩
  have hrt : row.filterMap id ≠ [] := by
    intro hcon
    rw [hcon] at hvrt
    simp at hvrt
  have hchrow : ch ∈ xlsxRowText row := by
    unfold xlsxRowText
    rw [if_neg hrt]
    exact List.mem_append.mpr (Or.inl (mem_joinSep hvrt hchv))
  have hchtext : ch ∈ xlsxText rows :=
    List.mem_flatMap.mpr ⟨row, hrow, hchrow⟩
  intro hcon
  have := stripL_eq_nil_iff.mp hcon ch hchtext
  rw [this] at hchw
  exact absurd hchw (by simp)

/-- Claim C8 (amended): the PDF extractor never emits a chunk with empty
trimmed content; the DOCX and XLSX extractors always emit exactly one
chunk whose content is the trimmed serialised text — empty exactly when
every paragraph is whitespace-only (DOCX), and non-empty whenever some
occupied cell contains a non-whitespace character (XLSX). -/
theorem c8_nonempty_chunks_amended :
    (∀ (source : String) (input : Except Unit (List (List Char))) (d : Doc),
      d ∈ extract_text_from_pdf source input →
      stripL d.content = d.content ∧ d.content ≠ []) ∧
    (∀ (source : String) (paras : List (List Char)),
      extract_text_from_docx source (Except.ok paras) =
        [⟨stripL (docxFullText paras), source, none, none⟩] ∧
      (stripL (docxFullText paras) = [] ↔ ∀ p ∈ paras, stripL p = [])) ∧
    (∀ (source : String) (rows : List (List (Option (List Char)))),
      extract_text_from_xlsx source (Except.ok rows) =
        [⟨stripL (xlsxText rows), source, none, none⟩] ∧
      ∀ row ∈ rows, ∀ v, some v ∈ row → stripL v ≠ [] →
        stripL (xlsxText rows) ≠ []) := by
  refine ⟨?_, ?_, ?_⟩
  · intro source input d h
    cases input with
    | error e => simp [extract_text_from_pdf] at h
    | ok pages =>
      obtain ⟨_, j, hj, hmem, _⟩ := extractPdfFrom_mem source pages 0 d h
      rcases List.mem_map.mp hmem with ⟨c, hc, hd⟩
      have := chunkify_strip_eq hc
      rw [← hd]
      exact this
  · intro source paras
    exact ⟨rfl, docx_content_iff paras⟩
  · intro source rows
    exact ⟨rfl, fun row hrow v hv hnv => xlsx_nonempty_of_cell hrow hv hnv⟩

/-- Claim C8 counterexample: a DOCX whose single paragraph is the
non-empty text `" "` yields one emitted chunk with empty trimmed
content. -/
theorem c8_counterexample :
    ([' '] : List Char) ≠ [] ∧
    extract_text_from_docx "g.docx" (Except.ok [[' ']]) =
      [⟨[], "g.docx", none, none⟩] ∧
    ∃ d ∈ extract_text_from_docx "g.docx" (Except.ok [[' ']]), stripL d.content = [] := by
  refine ⟨by simp, by decide, ?_⟩
  exact ⟨⟨[], "g.docx", none, none⟩, by decide, rfl⟩

def c8pdfDoc : Doc := ⟨("§ 2 Xy").toList, "v.pdf", some 1, some ['2']⟩

/-- Witness for the amended C8 on concrete PDF, DOCX, and XLSX inputs. -/
theorem c8_nonempty_chunks_amended_witness :
    (stripL c8pdfDoc.content = c8pdfDoc.content ∧ c8pdfDoc.content ≠ []) ∧
    (stripL (docxFullText [("Hallo").toList]) = [] ↔
      ∀ p ∈ [("Hallo").toList], stripL p = []) ∧
    stripL (xlsxText [[some (("A1").toList)]]) ≠ [] := by
  refine ⟨?_, ?_, ?_⟩
  · exact c8_nonempty_chunks_amended.1 "v.pdf" (Except.ok [("§ 2 Xy").toList])
      c8pdfDoc (by decide)
  · exact (c8_nonempty_chunks_amended.2.1 "d.docx" [("Hallo").toList]).2
  · exact (c8_nonempty_chunks_amended.2.2 "x.xlsx" [[some (("A1").toList)]]).2
      [some (("A1").toList)] (by simp) (("A1").toList) (by simp) (by decide)

/-! ### Lookahead extension lemmas (C9)

A successful lookahead match on a truncated suffix survives extending the
suffix, provided the continuation starts with a non-word character (or is
empty): the regex's final `\b` is the only part that looks at what follows
the consumed characters. -/

theorem ws_not_word {c : Char} (h : isWS c = true) : isWordChar c = false := by
  unfold isWS at h
  simp only [Bool.or_eq_true, decide_eq_true_eq] at h
  rcases h with ((((h | h) | h) | h) | h) | h
  · subst h; decide
  · subst h; decide
  · subst h; decide
  · subst h; decide
  · have : c = Char.ofNat 11 := by
      apply Char.ext
      simpa using h
    subst this; decide
  · have : c = Char.ofNat 12 := by
      apply Char.ext
      simpa using h
    subst this; decide

theorem boundaryB_nil : boundaryB [] = true := rfl

theorem boundaryB_cons (c : Char) (r : List Char) :
    boundaryB (c :: r) = !(isWordChar c) := rfl

theorem allWS_boundary {w : List Char} (h : allWS w) : boundaryB w = true := by
  cases w with
  | nil => rfl
  | cons c r =>
    rw [boundaryB_cons, ws_not_word (h c (List.mem_cons_self _ _))]
    rfl

theorem dropWhile_append_of_ne_nil {p : Char → Bool} :
    ∀ {u : List Char} {c : Char} {w v : List Char},
    u.dropWhile p = c :: w → (u ++ v).dropWhile p = c :: (w ++ v) := by
  intro u
  induction u with
  | nil => intro c w v h; simp [List.dropWhile] at h
  | cons a t ih =>
    intro c w v h
    rw [List.dropWhile_cons] at h
    rw [List.cons_append, List.dropWhile_cons]
    by_cases hp : p a = true
    · rw [if_pos hp] at h ⊢
      exact ih h
    · rw [if_neg hp] at h ⊢
      cases h
      rfl

theorem boundaryB_append {u v : List Char} (hu : boundaryB u = true)
    (hv : boundaryB v = true) : boundaryB (u ++ v) = true := by
  cases u with
  | nil => simpa using hv
  | cons c r =>
    rw [List.cons_append, boundaryB_cons]
    rw [boundaryB_cons] at hu
    exact hu

theorem digits2_append : ∀ {u : List Char}, digits2 u = true →
    ∀ {v : List Char}, boundaryB v = true → digits2 (u ++ v) = true := by
  intro u
  induction u with
  | nil => intro h; simp [digits2] at h
  | cons c rest ih =>
    intro h v hv
    rw [List.cons_append]
    unfold digits2 at h ⊢
    simp only [Bool.and_eq_true, Bool.or_eq_true] at h ⊢
    refine ⟨h.1, ?_⟩
    rcases h.2 with h2 | h2
    · exact Or.inl (boundaryB_append h2 hv)
    · exact Or.inr (ih h2 hv)

theorem absPart_append {u v : List Char} (h : absPart u = true)
    (hv : boundaryB v = true) : absPart (u ++ v) = true := by
  unfold absPart at h ⊢
  cases hdw : u.dropWhile isWS with
  | nil => rw [hdw] at h; simp at h
  | cons a w =>
    rw [hdw] at h
    rw [dropWhile_append_of_ne_nil hdw]
    cases w with
    | nil => simp at h
    | cons b w2 =>
      cases w2 with
      | nil => simp at h
      | cons c2 w3 =>
        cases w3 with
        | nil => simp at h
        | cons d w4 =>
          simp only [List.cons_append]
          simp only [Bool.and_eq_true] at h ⊢
          refine ⟨h.1, ?_⟩
          have hdig := h.2
          cases hdw2 : w4.dropWhile isWS with
          | nil => rw [hdw2] at hdig; simp [digits2] at hdig
          | cons x y =>
            rw [hdw2] at hdig
            rw [dropWhile_append_of_ne_nil hdw2]
            exact digits2_append hdig hv

theorem tailPart_append {u v : List Char} (h : tailPart u = true)
    (hv : boundaryB v = true) : tailPart (u ++ v) = true := by
  cases u with
  | nil =>
    show tailPart v = true
    unfold tailPart
    rw [hv]
    simp
  | cons c rest =>
    rw [List.cons_append]
    unfold tailPart at h ⊢
    simp only [Bool.or_eq_true, Bool.and_eq_true] at h ⊢
    rcases h with (⟨hl, habs | hbd⟩ | habs) | hbd
    · exact Or.inl (Or.inl ⟨hl, Or.inl (absPart_append habs hv)⟩)
    · exact Or.inl (Or.inl ⟨hl, Or.inr (boundaryB_append hbd hv)⟩)
    · exact Or.inl (Or.inr (absPart_append habs hv))
    · exact Or.inr hbd

theorem digitsLoop_append : ∀ {u : List Char}, digitsLoop u = true →
    ∀ {v : List Char}, boundaryB v = true → digitsLoop (u ++ v) = true := by
  intro u
  induction u with
  | nil =>
    intro _ v hv
    show digitsLoop v = true
    cases v with
    | nil => rfl
    | cons c r =>
      unfold digitsLoop tailPart
      rw [hv]
      simp
  | cons c rest ih =>
    intro h v hv
    rw [List.cons_append]
    unfold digitsLoop at h ⊢
    simp only [Bool.or_eq_true, Bool.and_eq_true] at h ⊢
    rcases h with h | ⟨hd, hloop⟩
    · exact Or.inl (tailPart_append h hv)
    · exact Or.inr ⟨hd, ih hloop hv⟩

theorem digitsStart_append {u v : List Char} (h : digitsStart u = true)
    (hv : boundaryB v = true) : digitsStart (u ++ v) = true := by
  cases u with
  | nil => simp [digitsStart] at h
  | cons c rest =>
    rw [List.cons_append]
    unfold digitsStart at h ⊢
    simp only [Bool.and_eq_true] at h ⊢
    exact ⟨h.1, digitsLoop_append h.2 hv⟩

theorem afterSectB_cons (c : Char) (rest : List Char) :
    afterSectB (c :: rest) =
      if isWS c then digitsStart rest else digitsStart (c :: rest) := rfl

theorem afterSectB_append {u v : List Char} (h : afterSectB u = true)
    (hv : boundaryB v = true) : afterSectB (u ++ v) = true := by
  cases u with
  | nil => simp [afterSectB] at h
  | cons c rest =>
    rw [List.cons_append]
    rw [afterSectB_cons] at h ⊢
    by_cases hws : isWS c = true
    · rw [if_pos hws] at h ⊢
      exact digitsStart_append h hv
    · rw [if_neg hws] at h ⊢
      rw [← List.cons_append]
      exact digitsStart_append h hv

theorem matchLA_append {u v : List Char} (h : matchLA u = true)
    (hv : boundaryB v = true) : matchLA (u ++ v) = true := by
  unfold matchLA at h ⊢
  cases hdw : u.dropWhile isWS with
  | nil => rw [hdw] at h; simp at h
  | cons c rest =>
    rw [hdw] at h
    rw [dropWhile_append_of_ne_nil hdw]
    simp only [Bool.and_eq_true] at h ⊢
    exact ⟨h.1, afterSectB_append h.2 hv⟩

/-- A matching suffix starts with a whitespace character or `§`, hence with
a non-word character. -/
theorem matchLA_boundary {t : List Char} (h : matchLA t = true) : boundaryB t = true := by
  cases t with
  | nil => rfl
  | cons c rest =>
    rw [boundaryB_cons]
    by_cases hws : isWS c = true
    · rw [ws_not_word hws]; rfl
    · unfold matchLA at h
      rw [List.dropWhile_cons, if_neg hws] at h
      simp only [Bool.and_eq_true, decide_eq_true_eq] at h
      rw [h.1]
      decide

/-! ### Split decomposition (C9) -/

theorem breakAtMatch_spec : ∀ t : List Char,
    t = (breakAtMatch t).1 ++ (breakAtMatch t).2 ∧
    (∀ j < (breakAtMatch t).1.length, matchLA (t.drop j) = false) ∧
    ((breakAtMatch t).2 ≠ [] → matchLA (breakAtMatch t).2 = true) := by
  intro t
  induction t with
  | nil => exact ⟨rfl, by simp [breakAtMatch], by simp [breakAtMatch]⟩
  | cons c rest ih =>
    by_cases hm : matchLA (c :: rest) = true
    · have hbk : breakAtMatch (c :: rest) = ([], c :: rest) := by
        rw [breakAtMatch, if_pos hm]
      rw [hbk]
      exact ⟨rfl, by simp, fun _ => hm⟩
    · have hbk : breakAtMatch (c :: rest) =
          (c :: (breakAtMatch rest).1, (breakAtMatch rest).2) := by
        rw [breakAtMatch, if_neg hm]
      rw [hbk]
      obtain ⟨ih1, ih2, ih3⟩ := ih
      refine ⟨by simpa using congrArg (c :: ·) ih1, ?_, ih3⟩
      intro j hj
      cases j with
      | zero => simpa using (Bool.not_eq_true _).mp hm
      | succ k =>
        rw [List.drop_succ_cons]
        exact ih2 k (by simpa using hj)

theorem splitGo_eq : ∀ (t : List Char) (acc : List Char),
    splitGo acc t = (acc.reverse ++ (breakAtMatch t).1) ::
      (match (breakAtMatch t).2 with
       | [] => []
       | c :: r => splitGo [c] r) := by
  intro t
  induction t with
  | nil => intro acc; simp [splitGo, breakAtMatch]
  | cons c rest ih =>
    intro acc
    by_cases hm : matchLA (c :: rest) = true
    · have hbk : breakAtMatch (c :: rest) = ([], c :: rest) := by
        rw [breakAtMatch, if_pos hm]
      rw [hbk]
      rw [splitGo, if_pos hm]
      simp
    · have hbk : breakAtMatch (c :: rest) =
          (c :: (breakAtMatch rest).1, (breakAtMatch rest).2) := by
        rw [breakAtMatch, if_neg hm]
      rw [hbk]
      rw [splitGo, if_neg hm, ih (c :: acc)]
      simp

/-! ### Interior positions of split pieces never match (C9) -/

theorem splitGo_pieces_interior : ∀ (n : Nat) (t : List Char) (c : Char)
    (piece : List Char), t.length ≤ n → piece ∈ splitGo [c] t →
    ∀ j, 0 < j → j < piece.length → matchLA (piece.drop j) = false := by
  intro n
  induction n with
  | zero =>
    intro t c piece hlen hmem j hj hjlen
    have ht : t = [] := List.length_eq_zero.mp (Nat.le_zero.mp hlen)
    subst ht
    simp [splitGo] at hmem
    subst hmem
    simp at hjlen
    omega
  | succ m ih =>
    intro t c piece hlen hmem j hj hjlen
    rw [splitGo_eq] at hmem
    obtain ⟨hsplit, hno, hv⟩ := breakAtMatch_spec t
    rcases List.mem_cons.mp hmem with hp | hp
    · have hp' : piece = c :: (breakAtMatch t).1 := by simpa using hp
      subst hp'
      cases j with
      | zero => omega
      | succ k =>
        rw [List.drop_succ_cons]
        have hk : k < (breakAtMatch t).1.length := by
          simp at hjlen
          omega
        have hnot : matchLA (t.drop k) = false := hno k hk
        have hdecomp : t.drop k = (breakAtMatch t).1.drop k ++ (breakAtMatch t).2 := by
          conv_lhs => rw [hsplit]
          rw [List.drop_append_of_le_length (Nat.le_of_lt hk)]
        by_cases hvnil : (breakAtMatch t).2 = []
        · rw [hvnil, List.append_nil] at hdecomp
          rw [← hdecomp]
          exact hnot
        · by_contra hcon
          have hcm : matchLA ((breakAtMatch t).1.drop k) = true := by
            cases hmm : matchLA ((breakAtMatch t).1.drop k) with
            | true => rfl
            | false => exact absurd hmm hcon
          have hext := matchLA_append hcm (matchLA_boundary (hv hvnil))
          rw [← hdecomp] at hext
          rw [hext] at hnot
          simp at hnot
    · cases hvv : (breakAtMatch t).2 with
      | nil => rw [hvv] at hp; simp at hp
      | cons c' r' =>
        rw [hvv] at hp
        refine ih r' c' piece ?_ hp j hj hjlen
        have hlen2 := congrArg List.length hsplit
        rw [hvv] at hlen2
        simp [List.length_append] at hlen2
        omega

theorem resplit_pieces_interior : ∀ (s piece : List Char), piece ∈ resplit s →
    ∀ j, 0 < j → j < piece.length → matchLA (piece.drop j) = false := by
  intro s piece hmem j hj hjlen
  unfold resplit at hmem
  rw [splitGo_eq] at hmem
  obtain ⟨hsplit, hno, hv⟩ := breakAtMatch_spec s
  rcases List.mem_cons.mp hmem with hp | hp
  · have hp' : piece = (breakAtMatch s).1 := by simpa using hp
    subst hp'
    have hnot : matchLA (s.drop j) = false := hno j hjlen
    have hdecomp : s.drop j = (breakAtMatch s).1.drop j ++ (breakAtMatch s).2 := by
      conv_lhs => rw [hsplit]
      rw [List.drop_append_of_le_length (Nat.le_of_lt hjlen)]
    by_cases hvnil : (breakAtMatch s).2 = []
    · rw [hvnil, List.append_nil] at hdecomp
      rw [← hdecomp]
      exact hnot
    · by_contra hcon
      have hcm : matchLA ((breakAtMatch s).1.drop j) = true := by
        cases hmm : matchLA ((breakAtMatch s).1.drop j) with
        | true => rfl
        | false => exact absurd hmm hcon
      have hext := matchLA_append hcm (matchLA_boundary (hv hvnil))
      rw [← hdecomp] at hext
      rw [hext] at hnot
      simp at hnot
  · cases hvv : (breakAtMatch s).2 with
    | nil => rw [hvv] at hp; simp at hp
    | cons c' r' =>
      rw [hvv] at hp
      exact splitGo_pieces_interior r'.length r' c' piece (Nat.le_refl _) hp j hj hjlen

/-- Interior no-match survives stripping: positions inside the stripped
piece correspond to interior positions of the piece, with the trailing
whitespace re-attached through the extension lemma. -/
theorem strip_interior {piece : List Char}
    (hpi : ∀ j, 0 < j → j < piece.length → matchLA (piece.drop j) = false) :
    ∀ j, 0 < j → j < (stripL piece).length →
      matchLA ((stripL piece).drop j) = false := by
  intro j hj hjlen
  obtain ⟨w1, w2, _, hw2, hdec⟩ := stripL_decomp piece
  have hd1 : (stripL piece ++ w2).drop j = (stripL piece).drop j ++ w2 :=
    List.drop_append_of_le_length (Nat.le_of_lt hjlen)
  have hd2 : piece.drop (w1.length + j) = (stripL piece).drop j ++ w2 := by
    conv_lhs => rw [hdec]
    rw [List.append_assoc, ← List.drop_drop, List.drop_left]
    exact hd1
  have hlen2 : w1.length + j < piece.length := by
    have hl := congrArg List.length hdec
    simp [List.length_append] at hl
    omega
  have hnot := hpi (w1.length + j) (by omega) hlen2
  rw [hd2] at hnot
  by_cases hw2nil : w2 = []
  · rw [hw2nil, List.append_nil] at hnot
    exact hnot
  · by_contra hcon
    have hcm : matchLA ((stripL piece).drop j) = true := by
      cases hmm : matchLA ((stripL piece).drop j) with
      | true => rfl
      | false => exact absurd hmm hcon
    have hext := matchLA_append hcm (allWS_boundary hw2)
    rw [hext] at hnot
    simp at hnot

/-- A stripped string that does not start with `§` matches nowhere at its
start: its head is not whitespace, so the lookahead's whitespace skip stops
immediately and fails to see `§`. -/
theorem no_match_of_stripped_not_sect {y : List Char}
    (hh : (stripL y).head? ≠ some '§') : matchLA (stripL y) = false := by
  cases hx : stripL y with
  | nil => rfl
  | cons c r =>
    have hc : isWS c = false := stripL_head_not_ws hx
    have hcs : c ≠ '§' := by
      rw [hx] at hh
      simpa using hh
    unfold matchLA
    rw [List.dropWhile_cons, if_neg (by simp [hc])]
    simp [hcs]

theorem matchLA_cons_ws {a : Char} (ha : isWS a = true) (x : List Char) :
    matchLA (a :: x) = matchLA x := by
  unfold matchLA
  rw [List.dropWhile_cons, if_pos ha]

/-- No interior position of an emitted chunk matches the lookahead. -/
theorem chunkify_no_interior {s c : List Char} (h : c ∈ chunkify s) :
    ∀ j, 0 < j → j < c.length → matchLA (c.drop j) = false := by
  obtain ⟨piece, hpmem, hnp, hc⟩ := mem_chunkify h
  have hpi := resplit_pieces_interior s piece hpmem
  have hsi := strip_interior hpi
  unfold emitChunk at hc
  by_cases hh : (stripL piece).head? = some '§'
  · rw [if_pos hh] at hc
    subst hc
    exact hsi
  · rw [if_neg hh] at hc
    subst hc
    intro j hj hjlen
    rcases j with _ | _ | _ | k
    · omega
    · show matchLA (' ' :: stripL piece) = false
      rw [matchLA_cons_ws (by decide)]
      exact no_match_of_stripped_not_sect hh
    · show matchLA (stripL piece) = false
      exact no_match_of_stripped_not_sect hh
    · show matchLA ((stripL piece).drop (k + 1)) = false
      refine hsi (k + 1) (by omega) ?_
      simp [List.length_cons] at hjlen
      omega

theorem breakAtMatch_all_nomatch : ∀ {t : List Char},
    (∀ j, j < t.length → matchLA (t.drop j) = false) → breakAtMatch t = (t, []) := by
  intro t
  induction t with
  | nil => intro _; rfl
  | cons c rest ih =>
    intro h
    have h0 : matchLA (c :: rest) = false := by simpa using h 0 (by simp)
    rw [breakAtMatch, if_neg (by simp [h0])]
    have hr := ih (fun j hj => by
      simpa [List.drop_succ_cons] using h (j + 1) (by simpa using Nat.succ_lt_succ hj))
    show (c :: (breakAtMatch rest).1, (breakAtMatch rest).2) = (c :: rest, [])
    rw [hr]

/-- An already-emitted chunk re-chunkifies to itself. -/
theorem chunkify_singleton {c : List Char} (hne : c ≠ []) (hstrip : stripL c = c)
    (hhead : c.head? = some '§')
    (hint : ∀ j, 0 < j → j < c.length → matchLA (c.drop j) = false) :
    chunkify c = [c] := by
  obtain ⟨c0, r, rfl⟩ : ∃ c0 r, c = c0 :: r := by
    cases c with
    | nil => exact absurd rfl hne
    | cons a b => exact ⟨a, b, rfl⟩
  have hsnil : stripL ([] : List Char) = [] := rfl
  have hemit : emitChunk (c0 :: r) = c0 :: r := by
    unfold emitChunk
    rw [if_pos hhead]
  by_cases hm : matchLA (c0 :: r) = true
  · have hbr : breakAtMatch r = (r, []) := by
      apply breakAtMatch_all_nomatch
      intro j hjlen
      have hji := hint (j + 1) (Nat.succ_pos _) (by simpa using Nat.succ_lt_succ hjlen)
      simpa [List.drop_succ_cons] using hji
    have hres : resplit (c0 :: r) = [[], c0 :: r] := by
      unfold resplit
      rw [splitGo, if_pos hm, splitGo_eq, hbr]
      simp
    simp [chunkify, hres, hstrip, hemit, hsnil]
  · have hbr : breakAtMatch (c0 :: r) = (c0 :: r, []) := by
      apply breakAtMatch_all_nomatch
      intro j hjlen
      cases j with
      | zero =>
        simpa using (Bool.not_eq_true _).mp hm
      | succ k =>
        have hji := hint (k + 1) (Nat.succ_pos _) hjlen
        exact hji
    have hres : resplit (c0 :: r) = [c0 :: r] := by
      unfold resplit
      rw [splitGo_eq, hbr]
      simp
    simp [chunkify, hres, hstrip, hemit, hsnil]

theorem chunkify_idem {s c : List Char} (h : c ∈ chunkify s) : chunkify c = [c] := by
  obtain ⟨hstrip, hne⟩ := chunkify_strip_eq h
  exact chunkify_singleton hne hstrip (chunkify_head h) (chunkify_no_interior h)

/-- Claim C9: section-marker splitting is idempotent — re-chunking any
emitted chunk's content yields exactly that one chunk, and no position of
the content other than its start fires the split lookahead. -/
theorem c9_split_idempotent (s c : List Char) (h : c ∈ chunkify s) :
    chunkify c = [c] ∧ ∀ j, 0 < j → j < c.length → matchLA (c.drop j) = false :=
  ⟨chunkify_idem h, chunkify_no_interior h⟩

/-- Witness for C9 on a concrete page string with a leading non-section
piece. -/
theorem c9_split_idempotent_witness :
    ("§ 1 Foo").toList ∈ chunkify (("Intro\n§ 1 Foo").toList) ∧
    chunkify (("§ 1 Foo").toList) = [("§ 1 Foo").toList] := by
  have hm : ("§ 1 Foo").toList ∈ chunkify (("Intro\n§ 1 Foo").toList) := by decide
  exact ⟨hm, (c9_split_idempotent _ _ hm).1⟩

end RagSpec
